import Mathlib

/-!
Verification development for the 1D relaxed-PES transition-state-guess
pipeline (autode/pes_1d.py) and the reactive-core extraction components
described by the specification.

Conventions of the embedding:
  - Python floats are modelled as rationals.
  - A value that may be absent (Python None) is an Option.
  - A Python run that may raise an exception is an Except Unit computation;
    Except.error models an uncaught TypeError.
  - Python object identity is modelled by a store (a list of molecule
    values) indexed by natural-number references, so that in-place
    mutation and deepcopy are observable.
-/

namespace Autode

/-- Python 3 comparison a < b between two possibly-absent energies.
Comparing None with a float, or None with None, raises a TypeError,
modelled as an Except error. -/
def optLt (a b : Option ℚ) : Except Unit Bool :=
  match a, b with
  | some x, some y => .ok (decide (x < y))
  | _, _ => .error ()

/-- The running fold of the Python builtin min over the tail of a list:
best is kept unless the next item compares strictly below it.  The
comparison itself can raise. -/
def pyminAux : Option ℚ → List (Option ℚ) → Except Unit (Option ℚ)
  | best, [] => .ok best
  | best, x :: xs =>
    match optLt x best with
    | .error u => .error u
    | .ok b => pyminAux (if b then x else best) xs

/-- Python builtin min over a list of possibly-absent energies.  An empty
list raises a ValueError; a singleton returns its element without any
comparison; otherwise items are compared pairwise, which raises on the
first comparison that involves an absent value. -/
def pymin : List (Option ℚ) → Except Unit (Option ℚ)
  | [] => .error ()
  | x :: xs => pyminAux x xs

/-- One iteration of the peak-search loop of find_1dpes_maximum_energy_xyzs
(pes_1d.py lines 78-81): the accumulator holds the running peak energy and
the xyzs recorded at the running peak.  The Python condition
energy_list i  greater than peak_e  and
energy_list i-1  less than  energy_list i  greater than  energy_list i+1
is evaluated left to right with short-circuiting, and each comparison can
raise when an energy is absent. -/
def peakStep {G : Type} [Inhabited G] (energy_list : List (Option ℚ)) (xyzs_list : List G)
    (acc : Option ℚ × Option G) (i : ℕ) : Except Unit (Option ℚ × Option G) :=
  match optLt acc.1 (energy_list.getD i none) with
  | .error u => .error u
  | .ok false => .ok acc
  | .ok true =>
    match optLt (energy_list.getD (i - 1) none) (energy_list.getD i none) with
    | .error u => .error u
    | .ok false => .ok acc
    | .ok true =>
      match optLt (energy_list.getD (i + 1) none) (energy_list.getD i none) with
      | .error u => .error u
      | .ok false => .ok acc
      | .ok true => .ok (energy_list.getD i none, some (xyzs_list.getD i default))

/-- Embedding of find_1dpes_maximum_energy_xyzs (pes_1d.py lines 62-90).
Returns None when either input list is empty; otherwise initialises the
running peak to min(energy_list) and scans the interior indices
range(1, len(dists) - 1), updating the running peak at every strict local
maximum exceeding the current peak.  The plotting and logging calls do not
affect the returned value and are omitted.  Any Python TypeError raised by
a comparison involving an absent energy propagates as an Except error. -/
def find_1dpes_maximum_energy_xyzs {G : Type} [Inhabited G] (dists : List ℚ)
    (xyzs_list : List G) (energy_list : List (Option ℚ)) : Except Unit (Option G) :=
  if xyzs_list.length = 0 ∨ energy_list.length = 0 then .ok none
  else
    match pymin energy_list with
    | .error u => .error u
    | .ok peak0 =>
      match (List.range' 1 (dists.length - 2)).foldlM
          (peakStep energy_list xyzs_list) (peak0, none) with
      | .error u => .error u
      | .ok r => .ok r.2

/-- The energy stored at index j of the collected energy list, defaulting
to 0 when the entry is out of range or absent.  Used only to state
properties about lists whose entries are all present. -/
def energyAt (el : List (Option ℚ)) (j : ℕ) : ℚ :=
  (el.getD j none).getD 0

/-- The geometry stored at index j of the collected geometry list. -/
def geomAt {G : Type} [Inhabited G] (xl : List G) (j : ℕ) : G :=
  xl.getD j default

/-- Index i is an interior strict local maximum of the energy curve e of
length n: it is neither the first nor the last index, and its energy is
strictly above both neighbours. -/
def interiorLM (n : ℕ) (e : ℕ → ℚ) (i : ℕ) : Prop :=
  1 ≤ i ∧ i + 1 < n ∧ e (i - 1) < e i ∧ e (i + 1) < e i

/-- Exception-free version of one peak-search iteration, valid when every
energy involved is present. -/
def peakStepP {G : Type} (e : ℕ → ℚ) (x : ℕ → G) (acc : ℚ × Option G) (i : ℕ) :
    ℚ × Option G :=
  if acc.1 < e i ∧ e (i - 1) < e i ∧ e (i + 1) < e i then (e i, some (x i)) else acc

instance decidableInteriorLM (n : ℕ) (e : ℕ → ℚ) (i : ℕ) : Decidable (interiorLM n e i) :=
  decidable_of_iff (1 ≤ i ∧ i + 1 < n ∧ e (i - 1) < e i ∧ e (i + 1) < e i) Iff.rfl

/-- A molecule geometry: one row per atom, holding the atom label and the
three Cartesian coordinates. -/
abbrev Xyzs := List (String × ℚ × ℚ × ℚ)

/-- The mutable state of a Molecule object: its geometry (absent when it
has no coordinates) and its remaining attributes, represented by charge
and multiplicity. -/
structure Mol where
  xyzs : Option Xyzs
  charge : Int
  mult : ℕ
deriving DecidableEq, Inhabited

/-- The heap of Molecule objects: a reference is an index into the store. -/
abbrev Store := List Mol

/-- Python deepcopy: allocates a fresh cell holding a copy of the value at
reference r and returns the new store together with the fresh reference. -/
def deepcopy (s : Store) (r : ℕ) : Store × ℕ :=
  (s ++ [s.getD r default], s.length)

/-- In-place assignment mol.xyzs = v on the molecule at reference r. -/
def setMolXyzs (s : Store) (r : ℕ) (v : Option Xyzs) : Store :=
  s.set r { s.getD r default with xyzs := v }

/-- The transition-state-guess record returned by the scan: the reference
of the molecule holding the peak geometry and the active bond list. -/
structure TSguess where
  molRef : ℕ
  active_bonds : List (ℕ × ℕ)
deriving DecidableEq

/-- numpy.linspace a b n: n evenly spaced values from a to b inclusive. -/
def linspace (a b : ℚ) (n : ℕ) : List ℚ :=
  if n = 0 then [] else if n = 1 then [a]
  else (List.range n).map (fun i : ℕ => a + (i : ℚ) * ((b - a) / ((n : ℚ) - 1)))

/-- The scan loop of get_ts_guess_1dpes_scan (pes_1d.py lines 38-47): for
each target distance, a constrained optimisation is run on the molecule at
reference mc (mol_with_const), its final geometry and energy are appended
to the collected lists, and the geometry is written back into the molecule
at mc so that the next step starts from it.  The external calculation is
the parameter relax, which receives the current molecule value and the
constrained distance and returns the final geometry and possibly-absent
energy. -/
def scanLoop (relax : Mol → ℚ → Xyzs × Option ℚ) :
    List ℚ → Store → ℕ → List Xyzs → List (Option ℚ) →
    Store × List Xyzs × List (Option ℚ)
  | [], s, _, xl, el => (s, xl, el)
  | d :: ds, s, mc, xl, el =>
    let r := relax (s.getD mc default) d
    scanLoop relax ds (setMolXyzs s mc (some r.1)) mc (xl ++ [r.1]) (el ++ [r.2])

/-- Embedding of get_ts_guess_1dpes_scan (pes_1d.py lines 13-59).  The
external electronic-structure calculation is the parameter relax and the
bond-distance query of the (out-of-scope) Molecule class is the parameter
calcBondDistance.  The function deep-copies the input molecule, scans
n_steps constrained optimisations over linspace(curr, curr + delta, n_steps),
builds the TS-guess molecule on a second deepcopy whose geometry is set to
the peak of the collected curve, and returns None when no peak was found.
A TypeError raised inside the peak search propagates. -/
def get_ts_guess_1dpes_scan (relax : Mol → ℚ → Xyzs × Option ℚ)
    (calcBondDistance : Mol → ℕ × ℕ → ℚ) (s : Store) (mol : ℕ)
    (active_bond : ℕ × ℕ) (n_steps : ℕ) (delta_dist : ℚ)
    (active_bonds_not_scanned : Option (List (ℕ × ℕ))) :
    Except Unit (Option TSguess) × Store :=
  let cpy := deepcopy s mol
  let curr_dist := calcBondDistance (s.getD mol default) active_bond
  let dists := linspace curr_dist (curr_dist + delta_dist) n_steps
  let run := scanLoop relax dists cpy.1 cpy.2 [] []
  let cpy2 := deepcopy run.1 mol
  match find_1dpes_maximum_energy_xyzs dists run.2.1 run.2.2 with
  | .error u => (.error u, cpy2.1)
  | .ok xp =>
    let s4 := setMolXyzs cpy2.1 cpy2.2 xp
    if ((s4.getD cpy2.2 default).xyzs).isNone then (.ok none, s4)
    else
      (.ok (some { molRef := cpy2.2,
                   active_bonds :=
                     match active_bonds_not_scanned with
                     | none => [active_bond]
                     | some l => active_bond :: l }), s4)

/-- The molecule value seen by step k of the scan when every step feeds
its relaxed geometry to the next: step 0 sees the initial copy m0, and
step k+1 sees the step-k molecule with its geometry replaced by the
step-k relaxed geometry.  This is the warm-start recurrence stated by the
specification. -/
def warmStart (relax : Mol → ℚ → Xyzs × Option ℚ) (ds : List ℚ) (m0 : Mol) : ℕ → Mol
  | 0 => m0
  | k + 1 =>
    let m := warmStart relax ds m0 k
    { m with xyzs := some (relax m (ds.getD k 0)).1 }

/-- The sequence of (geometry, energy) results produced by running the
relaxations sequentially from molecule m, feeding each geometry forward. -/
def scanOutAux (relax : Mol → ℚ → Xyzs × Option ℚ) : Mol → List ℚ → List (Xyzs × Option ℚ)
  | _, [] => []
  | m, d :: ds =>
    relax m d :: scanOutAux relax { m with xyzs := some (relax m d).1 } ds

/-- Modelled from the spec: one breadth-first expansion hop over the
molecular graph, given as an undirected edge list.  The source of
get_core_atoms (molecule.py) is not in the repository snapshot; section
4.1 of the specification describes a depth-bounded BFS union.  Every atom
adjacent to the current set is added. -/
def expandOnce (edges : List (ℕ × ℕ)) (s : Finset ℕ) : Finset ℕ :=
  edges.foldl (fun acc e =>
    if e.1 ∈ s then insert e.2 acc else if e.2 ∈ s then insert e.1 acc else acc) s

/-- Modelled from the spec: the set of atoms within depth hops of atom a
(depth inclusive, depth 0 giving only a itself). -/
def bfsBall (edges : List (ℕ × ℕ)) (a : ℕ) (depth : ℕ) : Finset ℕ :=
  (expandOnce edges)^[depth] {a}

/-- Modelled from the spec: the pi-bond closure pass of core-atom
selection.  For every pi-bonded pair with exactly one endpoint in the set,
the other endpoint is added, so that no pi system is split. -/
def piClosure (pi_bonds : List (ℕ × ℕ)) (s : Finset ℕ) : Finset ℕ :=
  pi_bonds.foldl (fun acc p =>
    if (p.1 ∈ acc ∧ p.2 ∉ acc) ∨ (p.2 ∈ acc ∧ p.1 ∉ acc) then
      insert p.1 (insert p.2 acc)
    else acc) s

/-- The pre-closure union of BFS balls around the active atoms. -/
def activeBallUnion (edges : List (ℕ × ℕ)) (active_atoms : Finset ℕ) (depth : ℕ) :
    Finset ℕ :=
  active_atoms.biUnion (fun a => bfsBall edges a depth)

/-- Modelled from the spec: get_core_atoms of the (missing) Molecule
class, per section 4.1 of the specification.  Returns absent when no
active atoms are defined; otherwise the union over all active atoms of
the depth-bounded BFS balls, followed by the pi-bond closure pass. -/
def get_core_atoms (edges : List (ℕ × ℕ)) (active_atoms : Finset ℕ)
    (pi_bonds : List (ℕ × ℕ)) (depth : ℕ) : Option (Finset ℕ) :=
  if active_atoms = ∅ then none
  else some (piClosure pi_bonds (activeBallUnion edges active_atoms depth))

/-- An ordered structure: one row per atom plus the fragment marker. -/
structure Structure where
  atoms : List (String × ℚ × ℚ × ℚ)
  is_fragment : Bool
deriving DecidableEq, Inhabited

/-- Forming and breaking bond pairs, indexed into the paired Structure. -/
structure BondRearrangement where
  fbonds : List (ℕ × ℕ)
  bbonds : List (ℕ × ℕ)
deriving DecidableEq

/-- The retained original indices, in ascending original order: the
filtered order of section 4.2 of the specification. -/
def keptAtoms (n : ℕ) (c : Finset ℕ) : List ℕ :=
  (List.range n).filter (fun i => decide (i ∈ c))

/-- The old-index to new-index mapping built from the filtered order: the
new index of a retained atom is its position in the ascending list of
retained indices, that is the number of retained atoms strictly below it. -/
def newIdx (c : Finset ℕ) (i : ℕ) : ℕ :=
  (keptAtoms i c).length

/-- A bond pair survives stripping exactly when both endpoints are in the
core; a surviving pair is remapped through the old-to-new mapping. -/
def remapPair (c : Finset ℕ) (p : ℕ × ℕ) : Option (ℕ × ℕ) :=
  if p.1 ∈ c ∧ p.2 ∈ c then some (newIdx c p.1, newIdx c p.2) else none

/-- Modelled from the spec: strip_core of the (missing) Molecule class,
per section 4.2 of the specification.  When core_atoms is absent or
already covers every atom, the operation is the identity on both inputs;
otherwise it keeps exactly the atoms whose index is in the core, in
ascending original order, marks the result a fragment, and remaps each
forming and breaking bond pair, dropping pairs with an endpoint outside
the core. -/
def strip_core (s : Structure) (core_atoms : Option (Finset ℕ))
    (br : BondRearrangement) : Structure × BondRearrangement :=
  match core_atoms with
  | none => (s, br)
  | some c =>
    if Finset.range s.atoms.length ⊆ c then (s, br)
    else
      ({ atoms := (keptAtoms s.atoms.length c).map (fun i => s.atoms.getD i default),
         is_fragment := true },
       { fbonds := br.fbonds.filterMap (remapPair c),
         bbonds := br.bbonds.filterMap (remapPair c) })

/-- A 32-atom stand-in for the test fixture structure: the stripping
arithmetic depends only on the atom count and the bond indices, not on
the atom contents. -/
def fix32 : Structure :=
  { atoms := (List.range 32).map (fun i => ("C", (i : ℚ), 0, 0)), is_fragment := false }

/-- The bond rearrangement of the fixture: forming (1, 30), breaking (0, 1). -/
def br0 : BondRearrangement := { fbonds := [(1, 30)], bbonds := [(0, 1)] }

/-- A 15-atom core of the 32-atom fixture with thirteen atoms below index
30 and containing atoms 0, 1, 30 and 31. -/
def core15 : Finset ℕ := {0, 1, 2, 3, 4, 5, 6, 7, 8, 9, 10, 11, 12, 30, 31}

/-- A 17-atom core of the 32-atom fixture containing atoms 0, 1, 30, 31. -/
def core17 : Finset ℕ := {0, 1, 2, 3, 4, 5, 6, 7, 8, 9, 10, 11, 12, 13, 14, 30, 31}

/-- The relaxation used in the step-failure scenario: it echoes the
constrained distance as the energy, except at distance 3 where the
optimisation fails and no energy is produced. -/
def relaxFail3 : Mol → ℚ → Xyzs × Option ℚ :=
  fun _ d => ([("X", d, 0, 0)], if d = 3 then none else some d)

/-- A one-molecule store used by the concrete scan scenarios. -/
def mol0 : Mol := { xyzs := some [("X", 1, 0, 0)], charge := 0, mult := 1 }

/-- Five integer-valued scan distances for the concrete scenarios. -/
def dists5 : List ℚ := [1, 2, 3, 4, 5]

/-- Three integer-valued scan distances. -/
def dists3 : List ℚ := [1, 2, 3]

/-- An energy curve with two interior strict local maxima of different
heights, the higher one first. -/
def elTwoPeaks : List (Option ℚ) := [some 0, some 5, some 1, some 4, some 0]

/-- A strictly increasing energy curve. -/
def elRising : List (Option ℚ) := [some 0, some 1, some 2, some 3, some 4]

/-- An energy curve with exactly one interior strict local maximum. -/
def elOnePeak : List (Option ℚ) := [some 0, some 2, some 0]

/-- Five distinguishable geometries, represented by tags. -/
def xlNat5 : List ℕ := [10, 11, 12, 13, 14]

/-- Three distinguishable geometries, represented by tags. -/
def xlNat3 : List ℕ := [20, 21, 22]

/-- A relaxation that echoes the constrained distance as the energy. -/
def relaxEcho : Mol → ℚ → Xyzs × Option ℚ := fun _ d => ([], some d)

/-- A relaxation that always fails to produce an energy. -/
def relaxNone : Mol → ℚ → Xyzs × Option ℚ := fun _ _ => ([], none)

/-- A two-atom structure used by the no-op stripping scenario. -/
def s2atoms : Structure :=
  { atoms := [("H", 0, 0, 0), ("H", 1, 0, 0)], is_fragment := false }

/-! ## List helpers -/

theorem list_getD_set_self {α : Type} (l : List α) (i : ℕ) (a d : α) (h : i < l.length) :
    (l.set i a).getD i d = a := by
  induction l generalizing i with
  | nil => simp at h
  | cons x xs ih =>
    cases i with
    | zero => simp
    | succ j => simpa using ih j (by simpa using h)

theorem list_getD_set_other {α : Type} (l : List α) (i j : ℕ) (a d : α) (h : i ≠ j) :
    (l.set i a).getD j d = l.getD j d := by
  induction l generalizing i j with
  | nil => simp
  | cons x xs ih =>
    cases i with
    | zero =>
      cases j with
      | zero => exact absurd rfl h
      | succ j2 => simp
    | succ i2 =>
      cases j with
      | zero => simp
      | succ j2 => simpa using ih i2 j2 (by omega)

theorem list_getD_concat_length {α : Type} (l : List α) (a d : α) :
    (l ++ [a]).getD l.length d = a := by
  induction l with
  | nil => simp
  | cons x xs ih => simp

theorem getD_mem_of_lt (el : List (Option ℚ)) (j : ℕ) (h : j < el.length) :
    el.getD j none ∈ el := by
  rw [List.getD_eq_getElem _ _ h]
  exact List.getElem_mem h

theorem getD_eq_some_energyAt (el : List (Option ℚ)) (j : ℕ)
    (h : (el.getD j none).isSome) : el.getD j none = some (energyAt el j) := by
  obtain ⟨q, hq⟩ := Option.isSome_iff_exists.mp h
  simp only [energyAt, hq]
  rfl

/-! ## Peak finder on fully present energy lists -/

theorem pyminAux_all_some :
    ∀ (xs : List (Option ℚ)) (b : ℚ), (∀ o ∈ xs, o.isSome) →
      ∃ m : ℚ, pyminAux (some b) xs = .ok (some m) ∧ m ≤ b ∧
        ∀ q : ℚ, some q ∈ xs → m ≤ q := by
  intro xs
  induction xs with
  | nil => exact fun b _ => ⟨b, rfl, le_refl b, by simp⟩
  | cons x xs ih =>
    intro b h
    obtain ⟨q, hq⟩ := Option.isSome_iff_exists.mp (h x (by simp))
    subst hq
    by_cases hqb : q < b
    · obtain ⟨m, hm, hmb, hall⟩ := ih q (fun o ho => h o (by simp [ho]))
      refine ⟨m, ?_, le_trans hmb (le_of_lt hqb), ?_⟩
      · simpa [pyminAux, optLt, hqb] using hm
      · intro r hr
        rcases List.mem_cons.mp hr with h1 | h2
        · rw [Option.some.inj h1]; exact hmb
        · exact hall r h2
    · obtain ⟨m, hm, hmb, hall⟩ := ih b (fun o ho => h o (by simp [ho]))
      refine ⟨m, ?_, hmb, ?_⟩
      · simpa [pyminAux, optLt, hqb] using hm
      · intro r hr
        rcases List.mem_cons.mp hr with h1 | h2
        · rw [Option.some.inj h1]; exact le_trans hmb (le_of_not_lt hqb)
        · exact hall r h2

theorem pymin_all_some (el : List (Option ℚ)) (hne : el ≠ [])
    (h : ∀ o ∈ el, o.isSome) :
    ∃ m : ℚ, pymin el = .ok (some m) ∧ ∀ j < el.length, m ≤ energyAt el j := by
  cases el with
  | nil => exact absurd rfl hne
  | cons x xs =>
    obtain ⟨q, hq⟩ := Option.isSome_iff_exists.mp (h x (by simp))
    subst hq
    obtain ⟨m, hm, hmb, hall⟩ := pyminAux_all_some xs q (fun o ho => h o (by simp [ho]))
    refine ⟨m, hm, ?_⟩
    intro j hj
    cases j with
    | zero => simpa [energyAt] using hmb
    | succ j2 =>
      have hj2 : j2 < xs.length := by simpa using hj
      have hmem : xs.getD j2 none ∈ xs := getD_mem_of_lt xs j2 hj2
      have hsome : (xs.getD j2 none).isSome := h _ (List.mem_cons_of_mem _ hmem)
      obtain ⟨r, hr⟩ := Option.isSome_iff_exists.mp hsome
      have hE : energyAt (some q :: xs) (j2 + 1) = r := by
        simp only [energyAt, List.getD_cons_succ, hr]
        rfl
      rw [hE]
      exact hall r (hr ▸ hmem)

theorem peakStep_all_some {G : Type} [Inhabited G] (el : List (Option ℚ)) (xl : List G)
    (i : ℕ) (hi : (el.getD i none).isSome) (hi1 : (el.getD (i - 1) none).isSome)
    (hi2 : (el.getD (i + 1) none).isSome) (p : ℚ) (g : Option G) :
    peakStep el xl (some p, g) i =
      .ok (some (peakStepP (energyAt el) (geomAt xl) (p, g) i).1,
           (peakStepP (energyAt el) (geomAt xl) (p, g) i).2) := by
  unfold peakStep
  rw [getD_eq_some_energyAt el i hi, getD_eq_some_energyAt el (i - 1) hi1,
      getD_eq_some_energyAt el (i + 1) hi2]
  by_cases h1 : p < energyAt el i
  · by_cases h2 : energyAt el (i - 1) < energyAt el i
    · by_cases h3 : energyAt el (i + 1) < energyAt el i
      · simp [optLt, h1, h2, h3, peakStepP, geomAt]
      · simp [optLt, h1, h2, h3, peakStepP]
    · simp [optLt, h1, h2, peakStepP]
  · simp [optLt, h1, peakStepP]

theorem except_foldlM_cons_ok {α σ : Type} (f : σ → α → Except Unit σ) (b c : σ)
    (a : α) (l : List α) (h : f b a = .ok c) :
    (a :: l).foldlM f b = l.foldlM f c := by
  rw [List.foldlM_cons, h]
  rfl

theorem foldlM_peakStep_eq_pure {G : Type} [Inhabited G] (el : List (Option ℚ))
    (xl : List G) :
    ∀ (L : List ℕ),
      (∀ i ∈ L, (el.getD i none).isSome ∧ (el.getD (i - 1) none).isSome ∧
        (el.getD (i + 1) none).isSome) →
      ∀ (p : ℚ) (g : Option G),
        L.foldlM (peakStep el xl) (some p, g) =
          .ok (some (L.foldl (peakStepP (energyAt el) (geomAt xl)) (p, g)).1,
               (L.foldl (peakStepP (energyAt el) (geomAt xl)) (p, g)).2) := by
  intro L
  induction L with
  | nil => intro _ p g; rfl
  | cons i L ih =>
    intro h p g
    obtain ⟨hi, hi1, hi2⟩ := h i (by simp)
    rw [except_foldlM_cons_ok _ _ _ _ _ (peakStep_all_some el xl i hi hi1 hi2 p g)]
    rw [List.foldl_cons]
    exact ih (fun j hj => h j (by simp [hj])) _ _

theorem foldl_eq_foldl_filter {α β : Type} (f : β → α → β) (q : α → Bool) :
    ∀ (L : List α) (b : β), (∀ acc a, a ∈ L → q a = false → f acc a = acc) →
      L.foldl f b = (L.filter q).foldl f b := by
  intro L
  induction L with
  | nil => intro b _; rfl
  | cons a L ih =>
    intro b h
    by_cases hqa : q a = true
    · rw [List.foldl_cons, List.filter_cons_of_pos hqa, List.foldl_cons]
      exact ih _ (fun acc x hx hq => h acc x (by simp [hx]) hq)
    · have hqa2 : q a = false := by simpa using hqa
      rw [List.foldl_cons, h b a (by simp) hqa2, List.filter_cons_of_neg (by simp [hqa2])]
      exact ih _ (fun acc x hx hq => h acc x (by simp [hx]) hq)

theorem peak_fold_char {G : Type} (e : ℕ → ℚ) (x : ℕ → G) :
    ∀ (L : List ℕ), L.Pairwise (· < ·) →
      (∀ i ∈ L, e (i - 1) < e i ∧ e (i + 1) < e i) →
      ∀ (p : ℚ) (g : Option G),
        ((∀ i ∈ L, e i ≤ p) ∧ L.foldl (peakStepP e x) (p, g) = (p, g)) ∨
        (∃ i, i ∈ L ∧ p < e i ∧ (∀ j ∈ L, e j ≤ e i) ∧
          (∀ j ∈ L, e j = e i → i ≤ j) ∧
          L.foldl (peakStepP e x) (p, g) = (e i, some (x i))) := by
  intro L
  induction L with
  | nil => intro _ _ p g; exact Or.inl ⟨by simp, rfl⟩
  | cons a L ih =>
    intro hpw hlm p g
    have hpwL : L.Pairwise (· < ·) := (List.pairwise_cons.mp hpw).2
    have haL : ∀ j ∈ L, a < j := (List.pairwise_cons.mp hpw).1
    have hlma := hlm a (by simp)
    have hlmL : ∀ i ∈ L, e (i - 1) < e i ∧ e (i + 1) < e i :=
      fun i hi => hlm i (by simp [hi])
    rw [List.foldl_cons]
    by_cases hpa : p < e a
    · have hstep : peakStepP e x (p, g) a = (e a, some (x a)) := by
        simp [peakStepP, hpa, hlma.1, hlma.2]
      rw [hstep]
      rcases ih hpwL hlmL (e a) (some (x a)) with ⟨hle, hfold⟩ |
        ⟨i, hiL, hia, hbound, hmin, hfold⟩
      · refine Or.inr ⟨a, by simp, hpa, ?_, ?_, hfold⟩
        · intro j hj
          rcases List.mem_cons.mp hj with rfl | hj2
          · exact le_refl _
          · exact hle j hj2
        · intro j hj _
          rcases List.mem_cons.mp hj with rfl | hj2
          · exact le_refl _
          · exact le_of_lt (haL j hj2)
      · refine Or.inr ⟨i, by simp [hiL], lt_trans hpa hia, ?_, ?_, hfold⟩
        · intro j hj
          rcases List.mem_cons.mp hj with rfl | hj2
          · exact le_of_lt hia
          · exact hbound j hj2
        · intro j hj hje
          rcases List.mem_cons.mp hj with rfl | hj2
          · exact absurd hje (ne_of_lt hia)
          · exact hmin j hj2 hje
    · have hstep : peakStepP e x (p, g) a = (p, g) := by
        simp [peakStepP, hpa]
      rw [hstep]
      rcases ih hpwL hlmL p g with ⟨hle, hfold⟩ | ⟨i, hiL, hia, hbound, hmin, hfold⟩
      · refine Or.inl ⟨?_, hfold⟩
        intro j hj
        rcases List.mem_cons.mp hj with rfl | hj2
        · exact le_of_not_lt hpa
        · exact hle j hj2
      · refine Or.inr ⟨i, by simp [hiL], hia, ?_, ?_, hfold⟩
        · intro j hj
          rcases List.mem_cons.mp hj with rfl | hj2
          · exact le_trans (le_of_not_lt hpa) (le_of_lt hia)
          · exact hbound j hj2
        · intro j hj hje
          rcases List.mem_cons.mp hj with rfl | hj2
          · exact absurd hje (ne_of_lt (lt_of_le_of_lt (le_of_not_lt hpa) hia))
          · exact hmin j hj2 hje

theorem find_eval_all_some {G : Type} [Inhabited G] (dists : List ℚ) (xl : List G)
    (el : List (Option ℚ)) (hx : xl.length = dists.length)
    (he : el.length = dists.length) (hn : dists.length ≠ 0)
    (hs : ∀ j < dists.length, (el.getD j none).isSome)
    (m : ℚ) (hm : pymin el = .ok (some m)) :
    find_1dpes_maximum_energy_xyzs dists xl el =
      .ok (((List.range' 1 (dists.length - 2)).foldl
        (peakStepP (energyAt el) (geomAt xl)) (m, none)).2) := by
  have hLsome : ∀ i ∈ List.range' 1 (dists.length - 2),
      (el.getD i none).isSome ∧ (el.getD (i - 1) none).isSome ∧
        (el.getD (i + 1) none).isSome := by
    intro i hi
    have hb := List.mem_range'_1.mp hi
    refine ⟨hs i (by omega), hs (i - 1) (by omega), hs (i + 1) (by omega)⟩
  unfold find_1dpes_maximum_energy_xyzs
  rw [if_neg (by omega), hm]
  dsimp only
  rw [foldlM_peakStep_eq_pure el xl (List.range' 1 (dists.length - 2)) hLsome m none]

theorem find_peak_char {G : Type} [Inhabited G] (dists : List ℚ) (xl : List G)
    (el : List (Option ℚ)) (hx : xl.length = dists.length)
    (he : el.length = dists.length)
    (hs : ∀ j < dists.length, (el.getD j none).isSome) :
    ((¬ ∃ i, interiorLM dists.length (energyAt el) i) →
        find_1dpes_maximum_energy_xyzs dists xl el = .ok none) ∧
    (∀ m, pymin el = .ok (some m) →
        ∀ i, interiorLM dists.length (energyAt el) i → m < energyAt el i) ∧
    ((∃ i, interiorLM dists.length (energyAt el) i) →
        ∃ i, interiorLM dists.length (energyAt el) i ∧
          (∀ j, interiorLM dists.length (energyAt el) j → energyAt el j ≤ energyAt el i) ∧
          (∀ j, interiorLM dists.length (energyAt el) j →
            energyAt el j = energyAt el i → i ≤ j) ∧
          find_1dpes_maximum_energy_xyzs dists xl el = .ok (some (geomAt xl i))) := by
  by_cases hn : dists.length = 0
  · have hel : el = [] := List.length_eq_zero.mp (by omega)
    have hfind : find_1dpes_maximum_energy_xyzs dists xl el = .ok none := by
      unfold find_1dpes_maximum_energy_xyzs
      rw [if_pos (by omega)]
    refine ⟨fun _ => hfind, ?_, ?_⟩
    · intro m hm
      rw [hel] at hm
      exact absurd hm (by simp [pymin])
    · rintro ⟨i, hi⟩
      exact absurd hi.2.1 (by omega)
  · obtain ⟨m, hm, hmle⟩ := pymin_all_some el
      (by intro hc; rw [hc] at he; simp at he; omega)
      (by
        intro o ho
        obtain ⟨j, hj, rfl⟩ := List.mem_iff_getElem.mp ho
        have := hs j (by omega)
        rwa [List.getD_eq_getElem el none (by omega)] at this)
    set e := energyAt el with he_def
    set L := List.range' 1 (dists.length - 2) with hL_def
    set q : ℕ → Bool := fun i => decide (e (i - 1) < e i ∧ e (i + 1) < e i) with hq_def
    set Lf := L.filter q with hLf_def
    have hmemLf : ∀ i, i ∈ Lf ↔ interiorLM dists.length e i := by
      intro i
      rw [hLf_def, List.mem_filter, hL_def]
      constructor
      · rintro ⟨hmem, hqi⟩
        have hb := List.mem_range'_1.mp hmem
        have hlm : e (i - 1) < e i ∧ e (i + 1) < e i := by
          simpa [hq_def] using hqi
        exact ⟨by omega, by omega, hlm.1, hlm.2⟩
      · rintro ⟨h1, h2, h3, h4⟩
        refine ⟨List.mem_range'_1.mpr ⟨h1, by omega⟩, by simp [hq_def, h3, h4]⟩
    have hfilter : ∀ (p : ℚ) (g : Option G),
        L.foldl (peakStepP e (geomAt xl)) (p, g) =
          Lf.foldl (peakStepP e (geomAt xl)) (p, g) := by
      intro p g
      refine foldl_eq_foldl_filter _ _ L (p, g) ?_
      intro acc a _ hqa
      have hnot : ¬ (e (a - 1) < e a ∧ e (a + 1) < e a) := by
        simpa [hq_def] using hqa
      simp only [peakStepP, if_neg]
      rw [if_neg]
      intro hc
      exact hnot ⟨hc.2.1, hc.2.2⟩
    have hpwLf : Lf.Pairwise (· < ·) := by
      rw [hLf_def, hL_def]
      exact (List.pairwise_lt_range' 1 (dists.length - 2)).filter q
    have hlmLf : ∀ i ∈ Lf, e (i - 1) < e i ∧ e (i + 1) < e i := by
      intro i hi
      have := (hmemLf i).mp hi
      exact ⟨this.2.2.1, this.2.2.2⟩
    have hminlt : ∀ i, interiorLM dists.length e i → m < e i := by
      intro i hi
      obtain ⟨hi1, hi2, hi3, hi4⟩ := hi
      have h1 : m ≤ e (i - 1) := hmle (i - 1) (by omega)
      exact lt_of_le_of_lt h1 hi3
    have heval := find_eval_all_some dists xl el hx he hn hs m hm
    refine ⟨?_, ?_, ?_⟩
    · intro hno
      have hLfnil : Lf = [] := by
        rw [List.eq_nil_iff_forall_not_mem]
        intro i hi
        exact hno ⟨i, (hmemLf i).mp hi⟩
      rw [heval, hfilter, hLfnil]
      rfl
    · intro m2 hm2 i hi
      have : some m2 = some m := by
        have := hm2.symm.trans hm
        exact Except.ok.inj this
      rw [Option.some.inj this]
      exact hminlt i hi
    · rintro ⟨i0, hi0⟩
      have hi0Lf : i0 ∈ Lf := (hmemLf i0).mpr hi0
      rcases peak_fold_char e (geomAt xl) Lf hpwLf hlmLf m none with
        ⟨hle, _⟩ | ⟨i, hiLf, _, hbound, hmin, hfold⟩
      · exact absurd (hle i0 hi0Lf) (not_le_of_lt (hminlt i0 hi0))
      · refine ⟨i, (hmemLf i).mp hiLf, ?_, ?_, ?_⟩
        · intro j hj
          exact hbound j ((hmemLf j).mpr hj)
        · intro j hj hje
          exact hmin j ((hmemLf j).mpr hj) hje
        · rw [heval, hfilter, hfold]

theorem el_all_some_of_indices (el : List (Option ℚ)) (n : ℕ) (he : el.length = n)
    (hs : ∀ j < n, (el.getD j none).isSome) : ∀ o ∈ el, o.isSome := by
  intro o ho
  obtain ⟨j, hj, rfl⟩ := List.mem_iff_getElem.mp ho
  have := hs j (by omega)
  rwa [List.getD_eq_getElem el none (by omega)] at this

/-! ## Claim theorems for the peak finder -/

/-- C2: on a fully present energy curve that has at least one interior
strict local maximum, find_1dpes_maximum_energy_xyzs returns the geometry
of the interior strict local maximum with the globally highest energy, not
merely the first one found, and on exact energy ties the maximum with the
lowest index wins. -/
theorem c2_peak_is_globally_highest_interior_maximum {G : Type} [Inhabited G]
    (dists : List ℚ) (xl : List G) (el : List (Option ℚ))
    (hx : xl.length = dists.length) (he : el.length = dists.length)
    (hs : ∀ j < dists.length, (el.getD j none).isSome)
    (hex : ∃ i, interiorLM dists.length (energyAt el) i) :
    ∃ i, interiorLM dists.length (energyAt el) i ∧
      (∀ j, interiorLM dists.length (energyAt el) j →
        energyAt el j ≤ energyAt el i) ∧
      (∀ j, interiorLM dists.length (energyAt el) j →
        energyAt el j = energyAt el i → i ≤ j) ∧
      find_1dpes_maximum_energy_xyzs dists xl el = .ok (some (geomAt xl i)) :=
  (find_peak_char dists xl el hx he hs).2.2 hex

/-- Witness for C2 on a concrete 5-point curve whose higher interior
maximum sits at index 1 and whose lower one sits at index 3. -/
theorem c2_witness :
    (∀ j < dists5.length, (elTwoPeaks.getD j none).isSome) ∧
    (∃ i, interiorLM dists5.length (energyAt elTwoPeaks) i) ∧
    (∃ i, interiorLM dists5.length (energyAt elTwoPeaks) i ∧
      (∀ j, interiorLM dists5.length (energyAt elTwoPeaks) j →
        energyAt elTwoPeaks j ≤ energyAt elTwoPeaks i) ∧
      (∀ j, interiorLM dists5.length (energyAt elTwoPeaks) j →
        energyAt elTwoPeaks j = energyAt elTwoPeaks i → i ≤ j) ∧
      find_1dpes_maximum_energy_xyzs dists5 xlNat5 elTwoPeaks =
        .ok (some (geomAt xlNat5 i))) :=
  ⟨by decide, ⟨1, by decide⟩,
   c2_peak_is_globally_highest_interior_maximum dists5 xlNat5 elTwoPeaks rfl rfl
     (by decide) ⟨1, by decide⟩⟩

/-- C4: on a fully present energy curve, a strictly increasing curve or a
strictly decreasing curve yields an absent result, and more generally the
result is absent whenever no interior index is a strict local maximum
whose energy exceeds the curve minimum. -/
theorem c4_monotone_or_peakless_returns_absent {G : Type} [Inhabited G]
    (dists : List ℚ) (xl : List G) (el : List (Option ℚ))
    (hx : xl.length = dists.length) (he : el.length = dists.length)
    (hs : ∀ j < dists.length, (el.getD j none).isSome) :
    ((∀ j < dists.length - 1, energyAt el j < energyAt el (j + 1)) →
        find_1dpes_maximum_energy_xyzs dists xl el = .ok none) ∧
    ((∀ j < dists.length - 1, energyAt el (j + 1) < energyAt el j) →
        find_1dpes_maximum_energy_xyzs dists xl el = .ok none) ∧
    ((∀ m, pymin el = .ok (some m) →
        ¬ ∃ i, interiorLM dists.length (energyAt el) i ∧ m < energyAt el i) →
      find_1dpes_maximum_energy_xyzs dists xl el = .ok none) := by
  have char := find_peak_char dists xl el hx he hs
  refine ⟨?_, ?_, ?_⟩
  · intro hinc
    refine char.1 ?_
    rintro ⟨i, hi1, hi2, hi3, hi4⟩
    exact absurd (hinc i (by omega)) (not_lt_of_lt hi4)
  · intro hdec
    refine char.1 ?_
    rintro ⟨i, hi1, hi2, hi3, hi4⟩
    have hstep := hdec (i - 1) (by omega)
    rw [show i - 1 + 1 = i by omega] at hstep
    exact absurd hi3 (not_lt_of_lt hstep)
  · intro hprem
    by_cases hn : dists.length = 0
    · refine char.1 ?_
      rintro ⟨i, hi⟩
      exact absurd hi.2.1 (by omega)
    · obtain ⟨m, hm, _⟩ := pymin_all_some el
        (by intro hc; rw [hc] at he; simp at he; omega)
        (el_all_some_of_indices el dists.length he hs)
      refine char.1 ?_
      rintro ⟨i, hi⟩
      exact hprem m hm ⟨i, hi, char.2.1 m hm i hi⟩

/-- Witness for C4 on a concrete strictly increasing 5-point curve. -/
theorem c4_witness :
    (∀ j < dists5.length, (elRising.getD j none).isSome) ∧
    (∀ j < dists5.length - 1, energyAt elRising j < energyAt elRising (j + 1)) ∧
    find_1dpes_maximum_energy_xyzs dists5 xlNat5 elRising = .ok none :=
  ⟨by decide, by decide,
   (c4_monotone_or_peakless_returns_absent dists5 xlNat5 elRising rfl rfl
     (by decide)).1 (by decide)⟩

/-- C10: on a fully present energy curve the guard against the curve
minimum is redundant: the peak finder returns a geometry exactly when an
interior strict local maximum exists, because every interior strict local
maximum strictly exceeds the minimum that initialises the running peak. -/
theorem c10_peak_found_iff_interior_maximum {G : Type} [Inhabited G]
    (dists : List ℚ) (xl : List G) (el : List (Option ℚ))
    (hx : xl.length = dists.length) (he : el.length = dists.length)
    (hs : ∀ j < dists.length, (el.getD j none).isSome) :
    ((∃ g, find_1dpes_maximum_energy_xyzs dists xl el = .ok (some g)) ↔
      ∃ i, interiorLM dists.length (energyAt el) i) ∧
    (∀ m, pymin el = .ok (some m) →
      ∀ i, interiorLM dists.length (energyAt el) i → m < energyAt el i) := by
  have char := find_peak_char dists xl el hx he hs
  refine ⟨⟨?_, ?_⟩, char.2.1⟩
  · rintro ⟨g, hg⟩
    by_contra hno
    have := (char.1 hno).symm.trans hg
    simp at this
  · intro hex
    obtain ⟨i, _, _, _, hfind⟩ := char.2.2 hex
    exact ⟨geomAt xl i, hfind⟩

/-- Witness for C10 on a concrete 3-point curve with one interior maximum. -/
theorem c10_witness :
    (∀ j < dists3.length, (elOnePeak.getD j none).isSome) ∧
    ((∃ g, find_1dpes_maximum_energy_xyzs dists3 xlNat3 elOnePeak = .ok (some g)) ↔
      ∃ i, interiorLM dists3.length (energyAt elOnePeak) i) :=
  ⟨by decide,
   (c10_peak_found_iff_interior_maximum dists3 xlNat3 elOnePeak rfl rfl (by decide)).1⟩

/-- C1: a 5-step scan in which the third step fails to relax does record
all five points, with the failed step carried as an absent energy, but the
peak finder then raises a TypeError (min over a list containing None)
instead of discarding the absent-energy point and terminating normally,
and the whole pipeline propagates the exception. -/
theorem c1_peak_finder_raises_on_absent_energy :
    (scanLoop relaxFail3 dists5 [mol0, mol0] 1 [] []).2.2 =
      [some 1, some 2, none, some 4, some 5] ∧
    ((scanLoop relaxFail3 dists5 [mol0, mol0] 1 [] []).2.1).length = 5 ∧
    find_1dpes_maximum_energy_xyzs dists5
      (scanLoop relaxFail3 dists5 [mol0, mol0] 1 [] []).2.1
      (scanLoop relaxFail3 dists5 [mol0, mol0] 1 [] []).2.2 = .error () ∧
    (get_ts_guess_1dpes_scan relaxFail3 (fun _ _ => 1) [mol0] 0 (0, 1) 5 4 none).1 =
      .error () := by
  refine ⟨rfl, rfl, rfl, ?_⟩
  have hds : linspace 1 (1 + 4) 5 = dists5 := by
    simp [linspace, List.range_succ, dists5]
    norm_num
  unfold get_ts_guess_1dpes_scan
  dsimp only
  rw [hds]
  rfl

/-! ## Scan-loop lemmas -/

theorem scanLoop_store_length (relax : Mol → ℚ → Xyzs × Option ℚ) :
    ∀ (ds : List ℚ) (s : Store) (mc : ℕ) (xl : List Xyzs) (el : List (Option ℚ)),
      ((scanLoop relax ds s mc xl el).1).length = s.length := by
  intro ds
  induction ds with
  | nil => intro s mc xl el; rfl
  | cons d ds ih =>
    intro s mc xl el
    simp only [scanLoop]
    rw [ih]
    simp [setMolXyzs]

theorem scanLoop_store_frame (relax : Mol → ℚ → Xyzs × Option ℚ) (mc j : ℕ)
    (hj : j ≠ mc) :
    ∀ (ds : List ℚ) (s : Store) (xl : List Xyzs) (el : List (Option ℚ)),
      ((scanLoop relax ds s mc xl el).1).getD j default = s.getD j default := by
  intro ds
  induction ds with
  | nil => intro s xl el; rfl
  | cons d ds ih =>
    intro s xl el
    simp only [scanLoop]
    rw [ih]
    simp only [setMolXyzs]
    exact list_getD_set_other _ mc j _ _ (Ne.symm hj)

theorem scanOutAux_length (relax : Mol → ℚ → Xyzs × Option ℚ) :
    ∀ (ds : List ℚ) (m : Mol), (scanOutAux relax m ds).length = ds.length := by
  intro ds
  induction ds with
  | nil => intro m; rfl
  | cons d ds ih => intro m; simp [scanOutAux, ih]

theorem scanLoop_collect (relax : Mol → ℚ → Xyzs × Option ℚ) (mc : ℕ) :
    ∀ (ds : List ℚ) (s : Store) (xl : List Xyzs) (el : List (Option ℚ)),
      mc < s.length →
      (scanLoop relax ds s mc xl el).2.1 =
          xl ++ (scanOutAux relax (s.getD mc default) ds).map Prod.fst ∧
      (scanLoop relax ds s mc xl el).2.2 =
          el ++ (scanOutAux relax (s.getD mc default) ds).map Prod.snd := by
  intro ds
  induction ds with
  | nil => intro s xl el _; simp [scanLoop, scanOutAux]
  | cons d ds ih =>
    intro s xl el hmc
    have hlen : mc < (setMolXyzs s mc (some (relax (s.getD mc default) d).1)).length := by
      simpa [setMolXyzs] using hmc
    obtain ⟨h1, h2⟩ := ih (setMolXyzs s mc (some (relax (s.getD mc default) d).1))
      (xl ++ [(relax (s.getD mc default) d).1]) (el ++ [(relax (s.getD mc default) d).2])
      hlen
    have hmol : (setMolXyzs s mc (some (relax (s.getD mc default) d).1)).getD mc default =
        { s.getD mc default with xyzs := some (relax (s.getD mc default) d).1 } := by
      simp only [setMolXyzs]
      exact list_getD_set_self _ mc _ _ hmc
    constructor
    · simp only [scanLoop]
      rw [h1, hmol]
      simp [scanOutAux]
    · simp only [scanLoop]
      rw [h2, hmol]
      simp [scanOutAux]

theorem warmStart_cons (relax : Mol → ℚ → Xyzs × Option ℚ) (d : ℚ) (ds : List ℚ)
    (m0 : Mol) :
    ∀ k, warmStart relax (d :: ds) m0 (k + 1) =
      warmStart relax ds { m0 with xyzs := some (relax m0 d).1 } k := by
  intro k
  induction k with
  | zero => rfl
  | succ k ih =>
    have heq : ∀ (l : List ℚ) (m : Mol) (j : ℕ),
        warmStart relax l m (j + 1) =
          { warmStart relax l m j with
            xyzs := some (relax (warmStart relax l m j) (l.getD j 0)).1 } :=
      fun _ _ _ => rfl
    rw [heq (d :: ds) m0 (k + 1), heq ds _ k, ih, List.getD_cons_succ]

theorem scanOutAux_getD (relax : Mol → ℚ → Xyzs × Option ℚ) :
    ∀ (ds : List ℚ) (m0 : Mol) (k : ℕ), k < ds.length →
      (scanOutAux relax m0 ds).getD k default =
        relax (warmStart relax ds m0 k) (ds.getD k 0) := by
  intro ds
  induction ds with
  | nil => intro m0 k hk; simp at hk
  | cons d ds ih =>
    intro m0 k hk
    cases k with
    | zero => rfl
    | succ k2 =>
      have hk2 : k2 < ds.length := by simpa using hk
      simp only [scanOutAux, List.getD_cons_succ]
      rw [ih _ k2 hk2, warmStart_cons]

theorem getD_map_fst {α β : Type} [Inhabited α] [Inhabited β] (L : List (α × β)) (k : ℕ) :
    (L.map Prod.fst).getD k default = (L.getD k default).1 := by
  induction L generalizing k with
  | nil => cases k <;> rfl
  | cons p L ih =>
    cases k with
    | zero => rfl
    | succ k2 =>
      simp only [List.map_cons, List.getD_cons_succ]
      exact ih k2

theorem getD_map_snd {α β : Type} [Inhabited α] [Inhabited β] (L : List (α × β)) (k : ℕ) :
    (L.map Prod.snd).getD k default = (L.getD k default).2 := by
  induction L generalizing k with
  | nil => cases k <;> rfl
  | cons p L ih =>
    cases k with
    | zero => rfl
    | succ k2 =>
      simp only [List.map_cons, List.getD_cons_succ]
      exact ih k2

/-! ## linspace lemmas -/

theorem linspace_length (a b : ℚ) (n : ℕ) : (linspace a b n).length = n := by
  unfold linspace
  split_ifs with h0 h1
  · simp [h0]
  · simp [h1]
  · rw [List.length_map, List.length_range]

theorem linspace_getD (a b : ℚ) (n i : ℕ) (h2 : 2 ≤ n) (hi : i < n) :
    (linspace a b n).getD i 0 = a + (i : ℚ) * ((b - a) / ((n : ℚ) - 1)) := by
  unfold linspace
  rw [if_neg (by omega), if_neg (by omega)]
  rw [List.getD_eq_getElem _ _ (by rw [List.length_map, List.length_range]; omega)]
  rw [List.getElem_map, List.getElem_range]

/-! ## Claim theorems for the scan driver -/

/-- C9: the scan never mutates the caller molecule: all constrained
optimisations run on a deepcopy, the TS-guess structure is built on a
second deepcopy, and the store cell of the input molecule is unchanged
after the call, whether or not the call raises. -/
theorem c9_scan_preserves_caller_molecule
    (relax : Mol → ℚ → Xyzs × Option ℚ) (calcBondDistance : Mol → ℕ × ℕ → ℚ)
    (s : Store) (mol : ℕ) (active_bond : ℕ × ℕ) (n_steps : ℕ) (delta_dist : ℚ)
    (abns : Option (List (ℕ × ℕ))) (hmol : mol < s.length) :
    ((get_ts_guess_1dpes_scan relax calcBondDistance s mol active_bond n_steps
        delta_dist abns).2).getD mol default = s.getD mol default := by
  have hA : ∀ ds : List ℚ,
      (((scanLoop relax ds (s ++ [s.getD mol default]) s.length [] []).1) ++
        [((scanLoop relax ds (s ++ [s.getD mol default]) s.length [] []).1).getD mol
          default]).getD mol default = s.getD mol default := by
    intro ds
    rw [List.getD_append _ _ _ _ (by rw [scanLoop_store_length]; simp; omega)]
    rw [scanLoop_store_frame relax s.length mol (by omega)]
    exact List.getD_append _ _ _ _ hmol
  have hB : ∀ (ds : List ℚ) (v : Option Xyzs),
      (setMolXyzs
        (((scanLoop relax ds (s ++ [s.getD mol default]) s.length [] []).1) ++
          [((scanLoop relax ds (s ++ [s.getD mol default]) s.length [] []).1).getD mol
            default])
        ((scanLoop relax ds (s ++ [s.getD mol default]) s.length [] []).1).length
        v).getD mol default = s.getD mol default := by
    intro ds v
    simp only [setMolXyzs]
    rw [list_getD_set_other _ _ _ _ _ (by rw [scanLoop_store_length]; simp; omega)]
    exact hA ds
  unfold get_ts_guess_1dpes_scan deepcopy
  dsimp only
  split
  · exact hA _
  · split
    · exact hB _ _
    · exact hB _ _

/-- Witness for C9: a two-step scan on a one-molecule store leaves the
caller molecule cell untouched. -/
theorem c9_witness :
    (0 : ℕ) < ([mol0] : Store).length ∧
    ((get_ts_guess_1dpes_scan relaxNone (fun _ _ => 0) [mol0] 0 (0, 1) 2 1
        none).2).getD 0 default = ([mol0] : Store).getD 0 default :=
  ⟨by decide,
   c9_scan_preserves_caller_molecule relaxNone (fun _ _ => 0) [mol0] 0 (0, 1) 2 1
     none (by decide)⟩

theorem getD_map_snd_opt {α : Type} [Inhabited α] (L : List (α × Option ℚ)) (k : ℕ) :
    (L.map Prod.snd).getD k none = (L.getD k default).2 :=
  getD_map_snd L k

/-- C3 (amended): with n_steps at least 2 the scan generates exactly
n_steps target distances, evenly spaced from the current bond distance to
current distance plus delta_dist inclusive, strictly increasing whenever
delta_dist is positive; the scan loop invokes exactly one relaxation per
step, in the generated order, where step k is started from the molecule
produced by step k-1 (step 0 from the initial copy), and collects exactly
one geometry and one energy entry per step. -/
theorem c3_scan_steps_and_warm_start (relax : Mol → ℚ → Xyzs × Option ℚ)
    (m0 : Mol) (curr delta : ℚ) (n : ℕ) (s : Store) (mc : ℕ) (ds : List ℚ)
    (sF : Store) (xlr : List Xyzs) (elr : List (Option ℚ))
    (hn : 2 ≤ n) (hmc : mc < s.length) (hm0 : s.getD mc default = m0)
    (hds : ds = linspace curr (curr + delta) n)
    (hrun : scanLoop relax ds s mc [] [] = (sF, xlr, elr)) :
    ds.length = n ∧
    (∀ i < n, ds.getD i 0 = curr + (i : ℚ) * (delta / ((n : ℚ) - 1))) ∧
    ds.getD 0 0 = curr ∧
    ds.getD (n - 1) 0 = curr + delta ∧
    (0 < delta → ∀ i, i + 1 < n → ds.getD i 0 < ds.getD (i + 1) 0) ∧
    xlr.length = n ∧
    elr.length = n ∧
    warmStart relax ds m0 0 = m0 ∧
    (∀ k < n, xlr.getD k default = (relax (warmStart relax ds m0 k) (ds.getD k 0)).1 ∧
      elr.getD k none = (relax (warmStart relax ds m0 k) (ds.getD k 0)).2) ∧
    (∀ k, k + 1 < n → warmStart relax ds m0 (k + 1) =
      { warmStart relax ds m0 k with xyzs := some (xlr.getD k default) }) := by
  subst hds
  have hne : ((n : ℚ) - 1) ≠ 0 := by
    have h2q : (2 : ℚ) ≤ (n : ℚ) := by exact_mod_cast hn
    intro hc
    have : (n : ℚ) = 1 := by linarith
    linarith
  have hpos : (0 : ℚ) < (n : ℚ) - 1 := by
    have h2q : (2 : ℚ) ≤ (n : ℚ) := by exact_mod_cast hn
    linarith
  have hlen : (linspace curr (curr + delta) n).length = n := linspace_length _ _ _
  have hspacing : ∀ i < n, (linspace curr (curr + delta) n).getD i 0 =
      curr + (i : ℚ) * (delta / ((n : ℚ) - 1)) := by
    intro i hi
    rw [linspace_getD _ _ _ _ hn hi]
    ring_nf
  obtain ⟨hX, hE⟩ := scanLoop_collect relax mc (linspace curr (curr + delta) n) s [] [] hmc
  have hX2 : xlr = (scanOutAux relax m0 (linspace curr (curr + delta) n)).map Prod.fst := by
    rw [hrun] at hX
    rw [← hm0]
    simpa using hX
  have hE2 : elr = (scanOutAux relax m0 (linspace curr (curr + delta) n)).map Prod.snd := by
    rw [hrun] at hE
    rw [← hm0]
    simpa using hE
  have hstep : ∀ k < n,
      xlr.getD k default =
        (relax (warmStart relax (linspace curr (curr + delta) n) m0 k)
          ((linspace curr (curr + delta) n).getD k 0)).1 ∧
      elr.getD k none =
        (relax (warmStart relax (linspace curr (curr + delta) n) m0 k)
          ((linspace curr (curr + delta) n).getD k 0)).2 := by
    intro k hk
    have hkd : k < (linspace curr (curr + delta) n).length := by omega
    constructor
    · rw [hX2, getD_map_fst, scanOutAux_getD relax _ m0 k hkd]
    · rw [hE2, getD_map_snd_opt, scanOutAux_getD relax _ m0 k hkd]
  refine ⟨hlen, hspacing, ?_, ?_, ?_, ?_, ?_, rfl, hstep, ?_⟩
  · rw [hspacing 0 (by omega)]
    simp
  · rw [linspace_getD _ _ _ _ hn (by omega)]
    rw [Nat.cast_sub (by omega : 1 ≤ n)]
    field_simp
  · intro hd i hi
    rw [linspace_getD _ _ _ _ hn (by omega), linspace_getD _ _ _ _ hn hi]
    have hq : 0 < (curr + delta - curr) / ((n : ℚ) - 1) := by
      have heq : curr + delta - curr = delta := by ring
      rw [heq]
      exact div_pos hd hpos
    have hmul := mul_lt_mul_of_pos_right (show (i : ℚ) < (i : ℚ) + 1 by linarith) hq
    push_cast
    linarith
  · rw [hX2, List.length_map, scanOutAux_length, hlen]
  · rw [hE2, List.length_map, scanOutAux_length, hlen]
  · intro k hk
    have heq : warmStart relax (linspace curr (curr + delta) n) m0 (k + 1) =
        { warmStart relax (linspace curr (curr + delta) n) m0 k with
          xyzs := some (relax (warmStart relax (linspace curr (curr + delta) n) m0 k)
            ((linspace curr (curr + delta) n).getD k 0)).1 } := rfl
    rw [heq, (hstep k (by omega)).1]

/-- C3 counterexample: with delta_dist negative the generated distances
decrease, so the relaxations are not invoked in increasing-distance order;
here the scan at delta_dist = -1 runs its first relaxation at distance 2
and its second at distance 3/2. -/
theorem c3_counterexample :
    linspace 2 (2 + (-1 : ℚ)) 3 = [2, 3/2, 1] ∧
    ¬ ((linspace 2 (2 + (-1 : ℚ)) 3).getD 0 0 < (linspace 2 (2 + (-1 : ℚ)) 3).getD 1 0) ∧
    (scanLoop relaxEcho (linspace 2 (2 + (-1 : ℚ)) 3) [mol0] 0 [] []).2.2 =
      [some 2, some (3/2), some 1] := by
  have h : linspace 2 (2 + (-1 : ℚ)) 3 = [2, 3/2, 1] := by
    simp [linspace, List.range_succ]
    norm_num
  refine ⟨h, ?_, ?_⟩
  · rw [h]
    simp only [List.getD_cons_zero, List.getD_cons_succ]
    norm_num
  · rw [h]
    rfl

/-- Witness for C3 (amended) on a concrete two-step scan. -/
theorem c3_witness :
    (2 ≤ 2) ∧ ((0 : ℕ) < ([mol0] : Store).length) ∧
    (linspace 0 (0 + 1) 2).length = 2 ∧
    (linspace 0 (0 + 1) 2).getD 0 0 = 0 :=
  ⟨le_refl 2, by decide,
   (c3_scan_steps_and_warm_start relaxEcho mol0 0 1 2 [mol0] 0
     (linspace 0 (0 + 1) 2)
     (scanLoop relaxEcho (linspace 0 (0 + 1) 2) [mol0] 0 [] []).1
     (scanLoop relaxEcho (linspace 0 (0 + 1) 2) [mol0] 0 [] []).2.1
     (scanLoop relaxEcho (linspace 0 (0 + 1) 2) [mol0] 0 [] []).2.2
     (le_refl 2) (by decide) rfl rfl rfl).1,
   (c3_scan_steps_and_warm_start relaxEcho mol0 0 1 2 [mol0] 0
     (linspace 0 (0 + 1) 2)
     (scanLoop relaxEcho (linspace 0 (0 + 1) 2) [mol0] 0 [] []).1
     (scanLoop relaxEcho (linspace 0 (0 + 1) 2) [mol0] 0 [] []).2.1
     (scanLoop relaxEcho (linspace 0 (0 + 1) 2) [mol0] 0 [] []).2.2
     (le_refl 2) (by decide) rfl rfl rfl).2.2.1⟩

/-! ## Core-atom selection lemmas -/

theorem foldl_grows {α : Type} (f : Finset ℕ → α → Finset ℕ)
    (hf : ∀ acc a, acc ⊆ f acc a) :
    ∀ (l : List α) (acc : Finset ℕ), acc ⊆ l.foldl f acc := by
  intro l
  induction l with
  | nil => intro acc; exact Finset.Subset.refl _
  | cons a l ih =>
    intro acc
    exact Finset.Subset.trans (hf acc a) (ih (f acc a))

theorem expandOnce_subset (edges : List (ℕ × ℕ)) (s : Finset ℕ) :
    s ⊆ expandOnce edges s := by
  unfold expandOnce
  apply foldl_grows
  intro acc e
  by_cases h1 : e.1 ∈ s
  · simp [h1, Finset.subset_insert]
  · by_cases h2 : e.2 ∈ s
    · simp [h1, h2, Finset.subset_insert]
    · simp [h1, h2]

theorem iterate_inflate {f : Finset ℕ → Finset ℕ} (hf : ∀ t, t ⊆ f t) :
    ∀ (k : ℕ) (t : Finset ℕ), t ⊆ f^[k] t := by
  intro k
  induction k with
  | zero => intro t; simp
  | succ k ih =>
    intro t
    rw [Function.iterate_succ_apply]
    exact Finset.Subset.trans (hf t) (ih (f t))

theorem bfsBall_mono_depth (edges : List (ℕ × ℕ)) (a : ℕ) (d1 d2 : ℕ) (h : d1 ≤ d2) :
    bfsBall edges a d1 ⊆ bfsBall edges a d2 := by
  unfold bfsBall
  obtain ⟨k, rfl⟩ := Nat.exists_eq_add_of_le h
  rw [Nat.add_comm d1 k, Function.iterate_add_apply]
  exact iterate_inflate (expandOnce_subset edges) k _

theorem piClosure_mono (pi_bonds : List (ℕ × ℕ)) :
    ∀ (s t : Finset ℕ), s ⊆ t → piClosure pi_bonds s ⊆ piClosure pi_bonds t := by
  induction pi_bonds with
  | nil => intro s t h; exact h
  | cons p rest ih =>
    intro s t hst
    have hstep : (if (p.1 ∈ s ∧ p.2 ∉ s) ∨ (p.2 ∈ s ∧ p.1 ∉ s) then
        insert p.1 (insert p.2 s) else s) ⊆
        (if (p.1 ∈ t ∧ p.2 ∉ t) ∨ (p.2 ∈ t ∧ p.1 ∉ t) then
        insert p.1 (insert p.2 t) else t) := by
      by_cases hs : (p.1 ∈ s ∧ p.2 ∉ s) ∨ (p.2 ∈ s ∧ p.1 ∉ s)
      · rw [if_pos hs]
        by_cases ht : (p.1 ∈ t ∧ p.2 ∉ t) ∨ (p.2 ∈ t ∧ p.1 ∉ t)
        · rw [if_pos ht]
          intro x hx
          simp only [Finset.mem_insert] at hx ⊢
          rcases hx with h | h | h
          · exact Or.inl h
          · exact Or.inr (Or.inl h)
          · exact Or.inr (Or.inr (hst h))
        · rw [if_neg ht]
          have hboth : p.1 ∈ t ∧ p.2 ∈ t := by
            rcases hs with ⟨h1, _⟩ | ⟨h2, _⟩
            · have h1t := hst h1
              by_cases h2t : p.2 ∈ t
              · exact ⟨h1t, h2t⟩
              · exact absurd (Or.inl ⟨h1t, h2t⟩) ht
            · have h2t := hst h2
              by_cases h1t : p.1 ∈ t
              · exact ⟨h1t, h2t⟩
              · exact absurd (Or.inr ⟨h2t, h1t⟩) ht
          intro x hx
          simp only [Finset.mem_insert] at hx
          rcases hx with rfl | rfl | h
          · exact hboth.1
          · exact hboth.2
          · exact hst h
      · rw [if_neg hs]
        refine Finset.Subset.trans hst ?_
        by_cases ht : (p.1 ∈ t ∧ p.2 ∉ t) ∨ (p.2 ∈ t ∧ p.1 ∉ t)
        · rw [if_pos ht]
          exact Finset.Subset.trans (Finset.subset_insert _ _) (Finset.subset_insert _ _)
        · rw [if_neg ht]
    have key := ih _ _ hstep
    simp only [piClosure, List.foldl_cons] at key ⊢
    exact key

/-! ## Claim theorems for core-atom selection -/

/-- C6: core-atom selection is monotone in the traversal depth, and at
depth 0 the pre-closure ball union is exactly the active-atom set. -/
theorem c6_core_selection_monotone (edges : List (ℕ × ℕ)) (active : Finset ℕ)
    (pib : List (ℕ × ℕ)) (d1 d2 : ℕ) (hne : active ≠ ∅) (hd : d1 < d2) :
    (∀ s1 s2, get_core_atoms edges active pib d1 = some s1 →
        get_core_atoms edges active pib d2 = some s2 → s1 ⊆ s2) ∧
    activeBallUnion edges active 0 = active := by
  constructor
  · intro s1 s2 h1 h2
    unfold get_core_atoms at h1 h2
    rw [if_neg hne] at h1 h2
    have hsub : activeBallUnion edges active d1 ⊆ activeBallUnion edges active d2 := by
      unfold activeBallUnion
      intro x hx
      rw [Finset.mem_biUnion] at hx ⊢
      obtain ⟨a, ha, hxa⟩ := hx
      exact ⟨a, ha, bfsBall_mono_depth edges a d1 d2 (by omega) hxa⟩
    have hmono := piClosure_mono pib _ _ hsub
    rw [← Option.some.inj h1, ← Option.some.inj h2]
    exact hmono
  · unfold activeBallUnion bfsBall
    ext x
    simp [Finset.mem_biUnion]

/-- Witness for C6 on a concrete path graph with a single active atom. -/
theorem c6_witness :
    (({0} : Finset ℕ) ≠ ∅) ∧ ((0 : ℕ) < 2) ∧
    (∀ s1 s2, get_core_atoms [(0, 1)] {0} [] 0 = some s1 →
        get_core_atoms [(0, 1)] {0} [] 2 = some s2 → s1 ⊆ s2) :=
  ⟨by decide, by decide,
   (c6_core_selection_monotone [(0, 1)] {0} [] 0 2 (by decide) (by decide)).1⟩

/-- C8: core-atom selection on a structure with no active atoms returns
absent, detected at entry, and in particular is never the empty set of
atoms. -/
theorem c8_core_selection_requires_active_atoms (edges : List (ℕ × ℕ))
    (pib : List (ℕ × ℕ)) (depth : ℕ) :
    get_core_atoms edges ∅ pib depth = none ∧
    ∀ s : Finset ℕ, get_core_atoms edges ∅ pib depth ≠ some s := by
  constructor
  · unfold get_core_atoms
    rw [if_pos rfl]
  · intro s h
    unfold get_core_atoms at h
    rw [if_pos rfl] at h
    exact Option.noConfusion h

/-! ## Fragment-stripper lemmas -/

theorem mem_keptAtoms (n : ℕ) (c : Finset ℕ) (i : ℕ) :
    i ∈ keptAtoms n c ↔ i < n ∧ i ∈ c := by
  simp [keptAtoms, List.mem_filter, List.mem_range]

theorem keptAtoms_succ (n : ℕ) (c : Finset ℕ) :
    keptAtoms (n + 1) c = keptAtoms n c ++ (if n ∈ c then [n] else []) := by
  unfold keptAtoms
  rw [List.range_succ, List.filter_append]
  by_cases h : n ∈ c <;> simp [h]

theorem keptAtoms_length_mono (c : Finset ℕ) {m n : ℕ} (h : m ≤ n) :
    (keptAtoms m c).length ≤ (keptAtoms n c).length := by
  induction h with
  | refl => exact le_refl _
  | step h2 ih =>
    rw [keptAtoms_succ, List.length_append]
    exact le_trans ih (Nat.le_add_right _ _)

theorem keptAtoms_length_lt (c : Finset ℕ) (i n : ℕ) (hin : i < n) (hic : i ∈ c) :
    (keptAtoms i c).length < (keptAtoms n c).length := by
  have h1 : (keptAtoms (i + 1) c).length = (keptAtoms i c).length + 1 := by
    rw [keptAtoms_succ, if_pos hic]
    simp
  have h2 := keptAtoms_length_mono c (show i + 1 ≤ n by omega)
  omega

theorem keptAtoms_getD (c : Finset ℕ) :
    ∀ (n i : ℕ), i < n → i ∈ c → (keptAtoms n c).getD (newIdx c i) 0 = i := by
  intro n
  induction n with
  | zero => intro i hi _; omega
  | succ n ih =>
    intro i hi hic
    by_cases hin : i < n
    · rw [keptAtoms_succ]
      have hlt : newIdx c i < (keptAtoms n c).length :=
        keptAtoms_length_lt c i n hin hic
      rw [List.getD_append _ _ _ _ hlt]
      exact ih i hin hic
    · have hieq : i = n := by omega
      subst hieq
      rw [keptAtoms_succ, if_pos hic]
      have hni : newIdx c i = (keptAtoms i c).length := rfl
      rw [hni]
      exact list_getD_concat_length _ _ _

theorem newIdx_strict_mono (c : Finset ℕ) (i j : ℕ) (hic : i ∈ c) (hij : i < j) :
    newIdx c i < newIdx c j :=
  keptAtoms_length_lt c i j hij hic

theorem list_getD_map_lt {α β : Type} (f : α → β) :
    ∀ (l : List α) (k : ℕ) (d : α) (db : β), k < l.length →
      (l.map f).getD k db = f (l.getD k d) := by
  intro l
  induction l with
  | nil => intro k d db h; simp at h
  | cons x xs ih =>
    intro k d db h
    cases k with
    | zero => rfl
    | succ k2 =>
      simp only [List.map_cons, List.getD_cons_succ]
      exact ih k2 d db (by simpa using h)

theorem mem_filterMap_remapPair (c : Finset ℕ) (l : List (ℕ × ℕ)) (q : ℕ × ℕ) :
    q ∈ l.filterMap (remapPair c) ↔
      ∃ p ∈ l, p.1 ∈ c ∧ p.2 ∈ c ∧ q = (newIdx c p.1, newIdx c p.2) := by
  rw [List.mem_filterMap]
  constructor
  · rintro ⟨p, hp, hpq⟩
    by_cases hm : p.1 ∈ c ∧ p.2 ∈ c
    · rw [remapPair, if_pos hm] at hpq
      exact ⟨p, hp, hm.1, hm.2, (Option.some.inj hpq).symm⟩
    · rw [remapPair, if_neg hm] at hpq
      exact Option.noConfusion hpq
  · rintro ⟨p, hp, h1, h2, rfl⟩
    exact ⟨p, hp, by rw [remapPair, if_pos ⟨h1, h2⟩]⟩

/-! ## Claim theorems for the fragment stripper -/

/-- C7: stripping is the identity on the no-op path: when the core set is
absent or covers every atom index, the original structure and the original
bond rearrangement are returned unchanged, and the result is not marked a
fragment when the input was not. -/
theorem c7_strip_core_noop (s : Structure) (br : BondRearrangement)
    (core : Option (Finset ℕ))
    (h : core = none ∨ ∃ c, core = some c ∧ Finset.range s.atoms.length ⊆ c) :
    strip_core s core br = (s, br) ∧
    (s.is_fragment = false → (strip_core s core br).1.is_fragment = false) := by
  have h1 : strip_core s core br = (s, br) := by
    rcases h with rfl | ⟨c, rfl, hc⟩
    · rfl
    · simp only [strip_core]
      rw [if_pos hc]
  refine ⟨h1, fun hf => ?_⟩
  rw [h1]
  exact hf

/-- Witness for C7 on a two-atom structure fully covered by the core. -/
theorem c7_witness :
    strip_core s2atoms (some {0, 1}) br0 = (s2atoms, br0) ∧
    (s2atoms.is_fragment = false →
      (strip_core s2atoms (some {0, 1}) br0).1.is_fragment = false) :=
  c7_strip_core_noop s2atoms br0 (some {0, 1}) (Or.inr ⟨{0, 1}, rfl, by decide⟩)

/-- C5 (amended): stripping with a proper core keeps exactly the atoms
whose original index is in the core in ascending original order, remaps a
bond pair exactly when both endpoints are in the core and drops it
otherwise, and marks the result a fragment; on a 32-atom fixture the core
actually passed to the stripper has 15 atoms (13 of them below index 30),
which yields a 15-atom fragment with forming bond (1, 30) remapped to
(1, 13) and breaking bond (0, 1) unchanged. -/
theorem c5_strip_keeps_core_in_order :
    (∀ (s : Structure) (c : Finset ℕ) (br : BondRearrangement),
      ¬ Finset.range s.atoms.length ⊆ c →
      ((strip_core s (some c) br).1.is_fragment = true ∧
       (∀ i, i ∈ keptAtoms s.atoms.length c ↔ i < s.atoms.length ∧ i ∈ c) ∧
       (strip_core s (some c) br).1.atoms.length = (keptAtoms s.atoms.length c).length ∧
       (∀ i, i < s.atoms.length → i ∈ c →
         (strip_core s (some c) br).1.atoms.getD (newIdx c i) default =
           s.atoms.getD i default) ∧
       (∀ i j, i ∈ c → j ∈ c → i < j → newIdx c i < newIdx c j) ∧
       (∀ q, q ∈ (strip_core s (some c) br).2.fbonds ↔
         ∃ p ∈ br.fbonds, p.1 ∈ c ∧ p.2 ∈ c ∧ q = (newIdx c p.1, newIdx c p.2)) ∧
       (∀ q, q ∈ (strip_core s (some c) br).2.bbonds ↔
         ∃ p ∈ br.bbonds, p.1 ∈ c ∧ p.2 ∈ c ∧ q = (newIdx c p.1, newIdx c p.2)))) ∧
    (fix32.atoms.length = 32 ∧ core15.card = 15 ∧
     (strip_core fix32 (some core15) br0).1.atoms.length = 15 ∧
     (strip_core fix32 (some core15) br0).1.is_fragment = true ∧
     (strip_core fix32 (some core15) br0).2.fbonds = [(1, 13)] ∧
     (strip_core fix32 (some core15) br0).2.bbonds = [(0, 1)]) := by
  constructor
  · intro s c br hnc
    have hstrip : strip_core s (some c) br =
        ({ atoms := (keptAtoms s.atoms.length c).map (fun i => s.atoms.getD i default),
           is_fragment := true },
         { fbonds := br.fbonds.filterMap (remapPair c),
           bbonds := br.bbonds.filterMap (remapPair c) }) := by
      simp only [strip_core]
      rw [if_neg hnc]
    refine ⟨by rw [hstrip], fun i => mem_keptAtoms _ c i, ?_, ?_, ?_, ?_, ?_⟩
    · rw [hstrip]
      exact List.length_map _ _
    · intro i hi hic
      rw [hstrip]
      have hlt : newIdx c i < (keptAtoms s.atoms.length c).length :=
        keptAtoms_length_lt c i _ hi hic
      show ((keptAtoms s.atoms.length c).map
        (fun i => s.atoms.getD i default)).getD (newIdx c i) default = _
      rw [list_getD_map_lt _ _ _ 0 _ hlt, keptAtoms_getD c _ i hi hic]
    · intro i j hic _ hij
      exact newIdx_strict_mono c i j hic hij
    · intro q
      rw [hstrip]
      exact mem_filterMap_remapPair c br.fbonds q
    · intro q
      rw [hstrip]
      exact mem_filterMap_remapPair c br.bbonds q
  · refine ⟨by decide, by decide, by decide, by decide, by decide, by decide⟩

/-- C5 counterexample: on the 32-atom fixture no size-17 core can remap
the forming bond (1, 30) to (1, 13); the concrete 17-atom core containing
atoms 30 and 31 remaps it to (1, 15). -/
theorem c5_counterexample :
    fix32.atoms.length = 32 ∧ core17.card = 17 ∧ (1, 30) ∈ br0.fbonds ∧
    (strip_core fix32 (some core17) br0).2.fbonds = [(1, 15)] ∧
    (strip_core fix32 (some core17) br0).2.fbonds ≠ [(1, 13)] :=
  ⟨by decide, by decide, by decide, by decide, by decide⟩

/-- Witness for C5 (amended) on the 32-atom fixture with the 15-atom core. -/
theorem c5_witness :
    (¬ Finset.range fix32.atoms.length ⊆ core15) ∧
    ((strip_core fix32 (some core15) br0).1.is_fragment = true ∧
     (∀ i, i ∈ keptAtoms fix32.atoms.length core15 ↔
        i < fix32.atoms.length ∧ i ∈ core15) ∧
     (strip_core fix32 (some core15) br0).1.atoms.length =
        (keptAtoms fix32.atoms.length core15).length ∧
     (∀ i, i < fix32.atoms.length → i ∈ core15 →
       (strip_core fix32 (some core15) br0).1.atoms.getD (newIdx core15 i) default =
         fix32.atoms.getD i default) ∧
     (∀ i j, i ∈ core15 → j ∈ core15 → i < j → newIdx core15 i < newIdx core15 j) ∧
     (∀ q, q ∈ (strip_core fix32 (some core15) br0).2.fbonds ↔
       ∃ p ∈ br0.fbonds, p.1 ∈ core15 ∧ p.2 ∈ core15 ∧
         q = (newIdx core15 p.1, newIdx core15 p.2)) ∧
     (∀ q, q ∈ (strip_core fix32 (some core15) br0).2.bbonds ↔
       ∃ p ∈ br0.bbonds, p.1 ∈ core15 ∧ p.2 ∈ core15 ∧
         q = (newIdx core15 p.1, newIdx core15 p.2))) :=
  ⟨by decide, c5_strip_keeps_core_in_order.1 fix32 core15 br0 (by decide)⟩

end Autode
